import Mathlib

/-!
Verification of the memory allocators in `src/utils/Allocator.h`
(PoolAllocator and FixedArray) against their specification.

Modelling conventions:
* `size_t` values are modelled as `Nat` (allocation sizes realisable in a
  run of this code are far below 2^64, so wraparound never occurs on the
  modelled paths).
* Pointers are modelled as abstract `Nat` addresses.  `calloc`/`malloc`
  are assumed to succeed; the address a fresh node receives is passed in
  as an explicit `newBase` argument.
* A dereference of a NULL pointer, and a fatal assertion, are modelled by
  the operation returning `none`.
* The block chain `firstBlock -> ... -> currBlock` is modelled as a list
  in chain order; `firstBlock` is its head and `currBlock` its last
  element (the code only ever appends at `currBlock`).
-/

/-- `sizeof(MemBlockNode)` on an LP64 platform: the header holds a `next`
pointer and two `size_t` fields (`size`, `free`), 3 × 8 bytes.  Block data
follows this header. -/
def memBlockNodeHeaderSize : Nat := 24

/-- `RoundUpTo8(n) = ((n+8-1)/8)*8`. -/
def RoundUpTo8 (n : Nat) : Nat := ((n + 8 - 1) / 8) * 8

/-- One `MemBlockNode` of the pool: `base` is the address `calloc`
returned for the node, `size` and `free` are the node's fields.  The
`next` pointer is represented by adjacency in the chain list. -/
structure MemBlockNode where
  base : Nat
  size : Nat
  free : Nat
deriving DecidableEq, Repr

/-- `MemBlockNode::Used() { return size - free; }` -/
def MemBlockNode.Used (b : MemBlockNode) : Nat := b.size - b.free

/-- Address where a block's data begins: just past the node header
(`(char*)node + sizeof(MemBlockNode)`). -/
def MemBlockNode.dataStart (b : MemBlockNode) : Nat :=
  b.base + memBlockNodeHeaderSize

/-- The PoolAllocator state: `minBlockSize` and the block chain
(`firstBlock`/`currBlock` are derived views of `blocks`), plus the bump
cursor `currMem` (an address; 0 models NULL). -/
structure PoolAllocator where
  minBlockSize : Nat
  blocks : List MemBlockNode
  currMem : Nat
deriving DecidableEq, Repr

/-- The `firstBlock` field: head of the chain (NULL when empty). -/
def PoolAllocator.firstBlock (p : PoolAllocator) : Option MemBlockNode :=
  p.blocks.head?

/-- The `currBlock` field: last element of the chain (NULL when empty). -/
def PoolAllocator.currBlock (p : PoolAllocator) : Option MemBlockNode :=
  p.blocks.getLast?

/-- `PoolAllocator()`: sets `minBlockSize = 4096` and calls `Init()`,
which NULLs `currBlock`, `firstBlock` and `currMem`. -/
def mkPoolAllocator : PoolAllocator :=
  { minBlockSize := 4096, blocks := [], currMem := 0 }

/-- Replace the last element of a list (the write through `currBlock`). -/
def updateLast (f : MemBlockNode → MemBlockNode) : List MemBlockNode → List MemBlockNode
  | [] => []
  | [b] => [f b]
  | b :: b' :: bs => b :: updateLast f (b' :: bs)

/-- `PoolAllocator::AllocBlock(minSize)`.  Computes
`size = max(minBlockSize, RoundUpTo8(minSize))`, allocates the node at
`newBase`, sets `firstBlock` if it was NULL, points `currMem` at the
node's data, fills in `size`/`free`, then executes
`currBlock->next = node`.  That last store dereferences `currBlock`
unconditionally: when `currBlock` is NULL (empty pool) this is a
null-pointer dereference, modelled as `none`. -/
def PoolAllocator.AllocBlock (p : PoolAllocator) (minSize newBase : Nat) :
    Option PoolAllocator :=
  let minSize' := RoundUpTo8 minSize
  let size := if minSize' > p.minBlockSize then minSize' else p.minBlockSize
  let node : MemBlockNode := { base := newBase, size := size, free := size }
  match p.currBlock with
  | none => none
  | some _ =>
      some { p with blocks := p.blocks ++ [node],
                    currMem := newBase + memBlockNodeHeaderSize }

/-- `PoolAllocator::FreeAll()`: releases every node of the chain and
calls `Init()`.  `minBlockSize` is not touched. -/
def PoolAllocator.FreeAll (p : PoolAllocator) : PoolAllocator :=
  { p with blocks := [], currMem := 0 }

/-- `PoolAllocator::SetMinBlockSize(newMinBlockSize)`.
Modelled from the spec: `CrashIf` comes from `BaseUtil.h`, which is not
among the analysed sources; per the spec it is a fatal assertion that
detects the condition and aborts ("must detect and abort, not silently
ignore"), modelled as returning `none` when its condition
(`currBlock != NULL`) holds. -/
def PoolAllocator.SetMinBlockSize (p : PoolAllocator) (newMinBlockSize : Nat) :
    Option PoolAllocator :=
  match p.currBlock with
  | some _ => none
  | none => some { p with minBlockSize := newMinBlockSize }

/-- `PoolAllocator::Realloc(mem, size)`.
Modelled from the spec: `CrashAlwaysIf` comes from `BaseUtil.h`, which is
not among the analysed sources; per the spec (and its name) it aborts
unconditionally when given `true`, so `Realloc` always fails fatally,
modelled as `none` (the `return NULL` after it is unreachable). -/
def PoolAllocator.Realloc (p : PoolAllocator) (mem size : Nat) : Option Nat :=
  none

/-- `PoolAllocator::Free(mem)`: does nothing. -/
def PoolAllocator.Free (p : PoolAllocator) (mem : Nat) : PoolAllocator := p

/-- `PoolAllocator::Alloc(size)`: rounds the size up to 8, allocates a
new block when there is no current block or the current one has too few
free bytes, then bumps: returns `currMem`, advances it by the rounded
size and decrements the current block's `free`.  `newBase` is the
address a freshly calloc'd node would get. -/
def PoolAllocator.Alloc (p : PoolAllocator) (size newBase : Nat) :
    Option (Nat × PoolAllocator) :=
  let size' := RoundUpTo8 size
  let bump : PoolAllocator → Nat × PoolAllocator := fun q =>
    (q.currMem,
     { q with currMem := q.currMem + size',
              blocks := updateLast (fun b => { b with free := b.free - size' }) q.blocks })
  match p.currBlock with
  | none =>
      match p.AllocBlock size' newBase with
      | none => none
      | some q => some (bump q)
  | some cb =>
      if cb.free < size' then
        match p.AllocBlock size' newBase with
        | none => none
        | some q => some (bump q)
      else
        some (bump p)

/-- Inner loop of `PoolAllocator::FindNthPieceOfSize`, walking the chain.
Transcribed exactly as written in the source: `piecesInBlock` is computed
as `curr->Used() / n` — the divisor is the index `n`, not `size`.  In C,
`n == 0` makes this a division by zero (undefined behaviour); `Nat`
division returns 0 there. -/
def findNthAux (size : Nat) : Nat → List MemBlockNode → Option Nat
  | _, [] => none
  | n, curr :: rest =>
      let piecesInBlock := curr.Used / n
      if piecesInBlock > n then
        some (curr.base + memBlockNodeHeaderSize + n * size)
      else
        findNthAux size (n - piecesInBlock) rest

/-- `PoolAllocator::FindNthPieceOfSize(size, n)`. -/
def PoolAllocator.FindNthPieceOfSize (p : PoolAllocator) (size n : Nat) : Option Nat :=
  findNthAux (RoundUpTo8 size) n p.blocks

/-- Run a list of `Alloc` requests (size, fresh-node address) in order;
`none` as soon as one crashes. -/
def runAllocs (p : PoolAllocator) : List (Nat × Nat) → Option PoolAllocator
  | [] => some p
  | (s, nb) :: rest =>
      match p.Alloc s nb with
      | none => none
      | some (_, p') => runAllocs p' rest

/-- Well-formedness of a pool state, as established by the allocator
itself: every block's `free` never exceeds its `size`, the used byte
count of every block is a multiple of 8, and the bump cursor sits
exactly `Used` bytes into the current block's data (0 when empty). -/
def PoolAllocator.WF (p : PoolAllocator) : Prop :=
  (∀ b ∈ p.blocks, b.free ≤ b.size ∧ 8 ∣ (b.size - b.free)) ∧
  p.currMem = (match p.blocks.getLast? with
               | none => 0
               | some cb => cb.dataStart + cb.Used)

/-! ### FixedArray -/

/-- `FixedArray<T, StackBufInBytes>` modelled by its template/type
parameters and the `memBuf` field; `some k` records a heap buffer of `k`
bytes, `none` that `memBuf` stayed NULL (inline storage is used). -/
structure FixedArray where
  stackBufInBytes : Nat
  sizeofT : Nat
  memBuf : Option Nat
deriving DecidableEq, Repr

/-- `FixedArray(elCount)`: `memBuf = NULL`; with
`stackEls = StackBufInBytes / sizeof(T)`, if `elCount > stackEls` a heap
buffer of `elCount * sizeof(T)` bytes is malloc'd. -/
def mkFixedArray (stackBufInBytes sizeofT elCount : Nat) : FixedArray :=
  let stackEls := stackBufInBytes / sizeofT
  { stackBufInBytes := stackBufInBytes
    sizeofT := sizeofT
    memBuf := if elCount > stackEls then some (elCount * sizeofT) else none }

/-- Which storage `FixedArray::Get()` returns. -/
inductive FixedArrayBuf where
  | stackBuf
  | memBuf
deriving DecidableEq, Repr

/-- `FixedArray::Get()`: the heap buffer if `memBuf` is non-NULL, else
the inline stack buffer. -/
def FixedArray.Get (a : FixedArray) : FixedArrayBuf :=
  match a.memBuf with
  | some _ => FixedArrayBuf.memBuf
  | none => FixedArrayBuf.stackBuf

instance (p : PoolAllocator) : Decidable p.WF := by
  unfold PoolAllocator.WF
  infer_instance

/-! ### Helper lemmas -/

theorem RoundUpTo8_idem (n : Nat) : RoundUpTo8 (RoundUpTo8 n) = RoundUpTo8 n := by
  unfold RoundUpTo8
  omega

theorem RoundUpTo8_dvd (n : Nat) : 8 ∣ RoundUpTo8 n := by
  unfold RoundUpTo8
  omega

theorem RoundUpTo8_le (n : Nat) : n ≤ RoundUpTo8 n := by
  unfold RoundUpTo8
  omega

theorem RoundUpTo8_lt (n : Nat) : RoundUpTo8 n < n + 8 := by
  unfold RoundUpTo8
  omega

theorem updateLast_concat (f : MemBlockNode → MemBlockNode) :
    ∀ (L : List MemBlockNode) (b : MemBlockNode), updateLast f (L ++ [b]) = L ++ [f b] := by
  intro L
  induction L with
  | nil => intro b; rfl
  | cons x xs ih =>
      intro b
      cases xs with
      | nil => rfl
      | cons y ys =>
          show x :: updateLast f ((y :: ys) ++ [b]) = x :: ((y :: ys) ++ [f b])
          rw [ih]

theorem currBlock_concat (p : PoolAllocator) (L : List MemBlockNode) (cb : MemBlockNode)
    (h : p.blocks = L ++ [cb]) : p.currBlock = some cb := by
  unfold PoolAllocator.currBlock
  rw [h, List.getLast?_concat]

theorem allocBlock_none (p : PoolAllocator) (m nb : Nat) (h : p.currBlock = none) :
    p.AllocBlock m nb = none := by
  unfold PoolAllocator.AllocBlock
  rw [h]

theorem allocBlock_some (p : PoolAllocator) (m nb : Nat) (cb : MemBlockNode)
    (h : p.currBlock = some cb) :
    p.AllocBlock m nb =
      some { p with
             blocks := p.blocks ++
               [{ base := nb,
                  size := max p.minBlockSize (RoundUpTo8 m),
                  free := max p.minBlockSize (RoundUpTo8 m) }],
             currMem := nb + memBlockNodeHeaderSize } := by
  unfold PoolAllocator.AllocBlock
  rw [h]
  have hmax : (if RoundUpTo8 m > p.minBlockSize then RoundUpTo8 m else p.minBlockSize)
      = max p.minBlockSize (RoundUpTo8 m) := by
    split <;> omega
  simp only [hmax]

theorem alloc_empty (p : PoolAllocator) (s nb : Nat) (h : p.blocks = []) :
    p.Alloc s nb = none := by
  have hcb : p.currBlock = none := by
    unfold PoolAllocator.currBlock
    rw [h]
    rfl
  unfold PoolAllocator.Alloc
  rw [hcb]
  dsimp only
  rw [allocBlock_none p (RoundUpTo8 s) nb hcb]

theorem alloc_concat (p : PoolAllocator) (s nb : Nat) (L : List MemBlockNode)
    (cb : MemBlockNode) (hcat : p.blocks = L ++ [cb]) :
    p.Alloc s nb =
      (if cb.free < RoundUpTo8 s then
        some (nb + memBlockNodeHeaderSize,
          { p with
            currMem := nb + memBlockNodeHeaderSize + RoundUpTo8 s,
            blocks := (L ++ [cb]) ++
              [{ base := nb,
                 size := max p.minBlockSize (RoundUpTo8 s),
                 free := max p.minBlockSize (RoundUpTo8 s) - RoundUpTo8 s }] })
      else
        some (p.currMem,
          { p with
            currMem := p.currMem + RoundUpTo8 s,
            blocks := L ++ [{ cb with free := cb.free - RoundUpTo8 s }] })) := by
  have hcb : p.currBlock = some cb := currBlock_concat p L cb hcat
  unfold PoolAllocator.Alloc
  rw [hcb]
  dsimp only
  split
  · rw [allocBlock_some p (RoundUpTo8 s) nb cb hcb]
    simp only [RoundUpTo8_idem, hcat]
    rw [updateLast_concat]
  · simp only [hcat]
    rw [updateLast_concat]

theorem alloc_minBlockSize (p : PoolAllocator) (s nb a : Nat) (p' : PoolAllocator)
    (h : p.Alloc s nb = some (a, p')) : p'.minBlockSize = p.minBlockSize := by
  rcases List.eq_nil_or_concat p.blocks with hnil | ⟨L, cb, hcat⟩
  · rw [alloc_empty p s nb hnil] at h
    exact absurd h (by simp)
  · rw [List.concat_eq_append] at hcat
    rw [alloc_concat p s nb L cb hcat] at h
    split at h <;> (injection h with h1; injection h1 with ha hp; rw [← hp])

theorem runAllocs_minBlockSize (l : List (Nat × Nat)) :
    ∀ (p q : PoolAllocator), runAllocs p l = some q → q.minBlockSize = p.minBlockSize := by
  induction l with
  | nil =>
      intro p q h
      unfold runAllocs at h
      injection h with h
      rw [h]
  | cons hd tl ih =>
      intro p q h
      unfold runAllocs at h
      rcases hd with ⟨s, nb⟩
      cases halloc : p.Alloc s nb with
      | none => rw [halloc] at h; exact absurd h (by simp)
      | some r =>
          rcases r with ⟨a, p'⟩
          rw [halloc] at h
          rw [ih p' q h, alloc_minBlockSize p s nb a p' halloc]

theorem getD_concat_of_lt (d : MemBlockNode) :
    ∀ (L : List MemBlockNode) (x : MemBlockNode) (i : Nat), i < L.length →
      (L ++ [x]).getD i d = L.getD i d := by
  intro L
  induction L with
  | nil => intro x i hi; exact absurd hi (by simp)
  | cons y ys ih =>
      intro x i hi
      cases i with
      | zero => rfl
      | succ j =>
          have : j < ys.length := by simpa using hi
          simpa using ih x j this

theorem getD_concat_last (d : MemBlockNode) :
    ∀ (L : List MemBlockNode) (x : MemBlockNode), (L ++ [x]).getD L.length d = x := by
  intro L
  induction L with
  | nil => intro x; rfl
  | cons y ys ih => intro x; simp [ih x]

/-! ### Claim theorems -/

/-- C1: the claim is FALSE of the code.  On a Pool Allocator in the Empty
state — right after construction (`mkPoolAllocator`) or right after
`FreeAll` — every allocation request crashes: `AllocBlock` executes
`currBlock->next = node` while `currBlock` is NULL, a null-pointer
dereference, so `Alloc` never succeeds on the first-allocation path
(modelled as `none`). -/
theorem firstAlloc_dereferences_null (s nb : Nat) (p : PoolAllocator) :
    mkPoolAllocator.Alloc s nb = none ∧ (p.FreeAll).Alloc s nb = none :=
  ⟨alloc_empty mkPoolAllocator s nb rfl, alloc_empty p.FreeAll s nb rfl⟩

/-- C2: the claim is FALSE of the code.  Starting from a pool holding one
fresh 4096-byte Block, two 8-byte allocations return the addresses 1024
and 1032; yet `FindNthPieceOfSize(8, 0)` returns NULL instead of 1024
(the loop computes `piecesInBlock = curr->Used() / n`, dividing by the
index `n` — for `n = 0` a division by zero, undefined behaviour in C,
`Nat`-division-by-zero = 0 in the model), and `FindNthPieceOfSize(8, 3)`
returns the non-null out-of-range address 1048 although only 2 elements
exist (the claim requires NULL there). -/
theorem findNthPiece_divides_by_index :
    (⟨4096, [⟨1000, 4096, 4096⟩], 1024⟩ : PoolAllocator).Alloc 8 0 =
        some (1024, ⟨4096, [⟨1000, 4096, 4088⟩], 1032⟩) ∧
    (⟨4096, [⟨1000, 4096, 4088⟩], 1032⟩ : PoolAllocator).Alloc 8 0 =
        some (1032, ⟨4096, [⟨1000, 4096, 4080⟩], 1040⟩) ∧
    (⟨4096, [⟨1000, 4096, 4080⟩], 1040⟩ : PoolAllocator).FindNthPieceOfSize 8 0 = none ∧
    (⟨4096, [⟨1000, 4096, 4080⟩], 1040⟩ : PoolAllocator).FindNthPieceOfSize 8 3 = some 1048 := by
  refine ⟨by decide, by decide, by decide, by decide⟩

/-- C6: `SetMinBlockSize(n)` updates the configured minimum exactly when
the pool is Empty (no Block exists); when any Block exists the
`CrashIf(currBlock)` assertion fires and the call aborts (modelled as
`none`) instead of being silently ignored. -/
theorem setMinBlockSize_iff_empty (p : PoolAllocator) (n : Nat) :
    (p.blocks = [] → p.SetMinBlockSize n = some { p with minBlockSize := n }) ∧
    (p.blocks ≠ [] → p.SetMinBlockSize n = none) := by
  constructor
  · intro h
    have hcb : p.currBlock = none := by
      unfold PoolAllocator.currBlock
      rw [h]
      rfl
    unfold PoolAllocator.SetMinBlockSize
    rw [hcb]
  · intro h
    rcases List.eq_nil_or_concat p.blocks with hnil | ⟨L, cb, hcat⟩
    · exact absurd hnil h
    · rw [List.concat_eq_append] at hcat
      have hcb : p.currBlock = some cb := currBlock_concat p L cb hcat
      unfold PoolAllocator.SetMinBlockSize
      rw [hcb]

/-- Witness for C6: on a freshly constructed pool, `SetMinBlockSize 64`
succeeds and records 64; on a pool with one Block it aborts. -/
theorem setMinBlockSize_iff_empty_witness :
    mkPoolAllocator.SetMinBlockSize 64 = some ⟨64, [], 0⟩ ∧
    (⟨4096, [⟨0, 8, 8⟩], 32⟩ : PoolAllocator).SetMinBlockSize 64 = none :=
  ⟨(setMinBlockSize_iff_empty mkPoolAllocator 64).1 rfl,
   (setMinBlockSize_iff_empty ⟨4096, [⟨0, 8, 8⟩], 32⟩ 64).2 (by decide)⟩

/-- C7: `Realloc` on the Pool Allocator fails fatally for every state and
every `(pointer, size)` argument pair — `CrashAlwaysIf(true)` aborts
unconditionally (modelled as `none`), so it never returns a usable
block. -/
theorem realloc_always_fatal (p : PoolAllocator) (mem size : Nat) :
    p.Realloc mem size = none := rfl

/-- C3: every successful `Alloc(s)` advances the bump cursor by exactly
`RoundUpTo8 s` — the least multiple of 8 that is ≥ `s` — subtracts that
same amount from the current Block's free counter (the Block's used byte
count grows by `RoundUpTo8 s` beyond the returned address's offset), and
the returned address is offset from the current Block's data start by a
multiple of 8. -/
theorem alloc_bump_by_rounded (p : PoolAllocator) (s nb a : Nat) (p' : PoolAllocator)
    (hwf : p.WF) (h : p.Alloc s nb = some (a, p')) :
    8 ∣ RoundUpTo8 s ∧ s ≤ RoundUpTo8 s ∧ RoundUpTo8 s < s + 8 ∧
    p'.currMem = a + RoundUpTo8 s ∧
    ∃ cb', p'.currBlock = some cb' ∧
      cb'.dataStart ≤ a ∧ 8 ∣ (a - cb'.dataStart) ∧
      cb'.Used = (a - cb'.dataStart) + RoundUpTo8 s := by
  refine ⟨RoundUpTo8_dvd s, RoundUpTo8_le s, RoundUpTo8_lt s, ?_⟩
  rcases List.eq_nil_or_concat p.blocks with hnil | ⟨L, cb, hcat⟩
  · rw [alloc_empty p s nb hnil] at h
    exact absurd h (by simp)
  rw [List.concat_eq_append] at hcat
  have hcbmem : cb ∈ p.blocks := by
    rw [hcat]
    exact List.mem_append_right L (by simp)
  obtain ⟨hfs, hdv⟩ := hwf.1 cb hcbmem
  have hcm : p.currMem = cb.dataStart + cb.Used := by
    have h2 := hwf.2
    rw [hcat, List.getLast?_concat] at h2
    exact h2
  rw [alloc_concat p s nb L cb hcat] at h
  split at h
  · rename_i hlt
    injection h with h1
    injection h1 with ha hp
    subst ha
    subst hp
    refine ⟨rfl, ⟨{ base := nb,
                    size := max p.minBlockSize (RoundUpTo8 s),
                    free := max p.minBlockSize (RoundUpTo8 s) - RoundUpTo8 s },
                  ?_, ?_, ?_, ?_⟩⟩
    · unfold PoolAllocator.currBlock
      exact List.getLast?_concat _
    · exact Nat.le_refl _
    · simp [MemBlockNode.dataStart]
    · have hM : RoundUpTo8 s ≤ max p.minBlockSize (RoundUpTo8 s) := Nat.le_max_right _ _
      simp only [MemBlockNode.Used, MemBlockNode.dataStart]
      omega
  · rename_i hge
    injection h with h1
    injection h1 with ha hp
    subst ha
    subst hp
    refine ⟨rfl, ⟨{ base := cb.base, size := cb.size,
                    free := cb.free - RoundUpTo8 s }, ?_, ?_, ?_, ?_⟩⟩
    · unfold PoolAllocator.currBlock
      exact List.getLast?_concat _
    · rw [hcm]
      simp only [MemBlockNode.Used, MemBlockNode.dataStart]
      omega
    · rw [hcm]
      simp only [MemBlockNode.Used, MemBlockNode.dataStart]
      omega
    · rw [hcm]
      simp only [MemBlockNode.Used, MemBlockNode.dataStart]
      omega

/-- Witness for C3: a well-formed one-Block pool; `Alloc(3)` returns
address 1024, advances the cursor to 1032 = 1024 + RoundUpTo8 3, and the
offset from the Block's data start is 0. -/
theorem alloc_bump_by_rounded_witness :
    (⟨4096, [⟨1000, 4096, 4096⟩], 1024⟩ : PoolAllocator).WF ∧
    (⟨4096, [⟨1000, 4096, 4096⟩], 1024⟩ : PoolAllocator).Alloc 3 0 =
      some (1024, ⟨4096, [⟨1000, 4096, 4088⟩], 1032⟩) ∧
    (8 ∣ RoundUpTo8 3 ∧ 3 ≤ RoundUpTo8 3 ∧ RoundUpTo8 3 < 3 + 8 ∧
     (⟨4096, [⟨1000, 4096, 4088⟩], 1032⟩ : PoolAllocator).currMem = 1024 + RoundUpTo8 3 ∧
     ∃ cb', (⟨4096, [⟨1000, 4096, 4088⟩], 1032⟩ : PoolAllocator).currBlock = some cb' ∧
       cb'.dataStart ≤ 1024 ∧ 8 ∣ (1024 - cb'.dataStart) ∧
       cb'.Used = (1024 - cb'.dataStart) + RoundUpTo8 3) :=
  ⟨by decide, by decide,
   alloc_bump_by_rounded ⟨4096, [⟨1000, 4096, 4096⟩], 1024⟩ 3 0 1024
     ⟨4096, [⟨1000, 4096, 4088⟩], 1032⟩ (by decide) (by decide)⟩

/-- C4: whenever `AllocBlock` creates a new Block for a request of size
`S`, the Block is appended to the chain and becomes the current Block,
and its capacity (both `size` and initial `free`) equals
`max(minBlockSize, RoundUpTo8 S)`; in particular the capacity is at
least `RoundUpTo8 S`, and exactly `RoundUpTo8 S` when that exceeds the
configured minimum. -/
theorem allocBlock_capacity (p : PoolAllocator) (S nb : Nat) (p' : PoolAllocator)
    (h : p.AllocBlock S nb = some p') :
    ∃ node : MemBlockNode,
      p'.blocks = p.blocks ++ [node] ∧
      p'.currBlock = some node ∧
      node.base = nb ∧
      node.size = max p.minBlockSize (RoundUpTo8 S) ∧
      node.free = node.size ∧
      RoundUpTo8 S ≤ node.size ∧
      (p.minBlockSize < RoundUpTo8 S → node.size = RoundUpTo8 S) := by
  cases hcb : p.currBlock with
  | none =>
      rw [allocBlock_none p S nb hcb] at h
      exact absurd h (by simp)
  | some cb =>
      rw [allocBlock_some p S nb cb hcb] at h
      injection h with h1
      subst h1
      refine ⟨{ base := nb,
                size := max p.minBlockSize (RoundUpTo8 S),
                free := max p.minBlockSize (RoundUpTo8 S) },
              rfl, ?_, rfl, rfl, rfl, Nat.le_max_right _ _,
              fun hlt => Nat.max_eq_right (Nat.le_of_lt hlt)⟩
      unfold PoolAllocator.currBlock
      exact List.getLast?_concat _

/-- Witness for C4: on a pool whose current Block is full, a request of
5000 bytes (rounded: 5000, already a multiple of 8, larger than the 4096
minimum) creates a Block of capacity exactly 5000. -/
theorem allocBlock_capacity_witness :
    (⟨4096, [⟨0, 8, 8⟩], 32⟩ : PoolAllocator).AllocBlock 5000 100 =
      some ⟨4096, [⟨0, 8, 8⟩, ⟨100, 5000, 5000⟩], 124⟩ ∧
    (∃ node : MemBlockNode,
      (⟨4096, [⟨0, 8, 8⟩, ⟨100, 5000, 5000⟩], 124⟩ : PoolAllocator).blocks =
        (⟨4096, [⟨0, 8, 8⟩], 32⟩ : PoolAllocator).blocks ++ [node] ∧
      (⟨4096, [⟨0, 8, 8⟩, ⟨100, 5000, 5000⟩], 124⟩ : PoolAllocator).currBlock = some node ∧
      node.base = 100 ∧
      node.size = max (⟨4096, [⟨0, 8, 8⟩], 32⟩ : PoolAllocator).minBlockSize (RoundUpTo8 5000) ∧
      node.free = node.size ∧
      RoundUpTo8 5000 ≤ node.size ∧
      ((⟨4096, [⟨0, 8, 8⟩], 32⟩ : PoolAllocator).minBlockSize < RoundUpTo8 5000 →
        node.size = RoundUpTo8 5000)) :=
  ⟨by decide,
   allocBlock_capacity ⟨4096, [⟨0, 8, 8⟩], 32⟩ 5000 100
     ⟨4096, [⟨0, 8, 8⟩, ⟨100, 5000, 5000⟩], 124⟩ (by decide)⟩

/-- C5: `FreeAll` resets the pool to its empty initial state (no Blocks,
no cursor): after any sequence of allocations from any state, `FreeAll`
yields the state `⟨minBlockSize, [], 0⟩`, which, when `minBlockSize` is
the construction-time default 4096, is exactly the newly constructed
pool, so a subsequent `Alloc` behaves identically to one on a freshly
constructed pool; `FreeAll` is idempotent and safe on an empty pool. -/
theorem freeAll_resets_to_initial (p : PoolAllocator) :
    (p.minBlockSize = 4096 → p.FreeAll = mkPoolAllocator) ∧
    (∀ l q, runAllocs p l = some q →
      q.FreeAll = { minBlockSize := p.minBlockSize, blocks := [], currMem := 0 } ∧
      (p.minBlockSize = 4096 → ∀ s nb, q.FreeAll.Alloc s nb = mkPoolAllocator.Alloc s nb)) ∧
    p.FreeAll.FreeAll = p.FreeAll ∧
    mkPoolAllocator.FreeAll = mkPoolAllocator := by
  have hfa : ∀ r : PoolAllocator, r.FreeAll = ⟨r.minBlockSize, [], 0⟩ := fun r => rfl
  refine ⟨?_, ?_, rfl, rfl⟩
  · intro h4096
    rw [hfa p, h4096]
    rfl
  · intro l q hrun
    have hmin : q.minBlockSize = p.minBlockSize := runAllocs_minBlockSize l p q hrun
    constructor
    · rw [hfa q, hmin]
    · intro h4096 s nb
      rw [hfa q, hmin, h4096]
      rfl

/-- Witness for C5: one allocation on a one-Block default pool, then
`FreeAll`, gives back exactly the newly constructed pool, and `Alloc`
afterwards behaves identically to `Alloc` on the fresh pool. -/
theorem freeAll_resets_to_initial_witness :
    runAllocs ⟨4096, [⟨0, 16, 16⟩], 24⟩ [(8, 100)] = some ⟨4096, [⟨0, 16, 8⟩], 32⟩ ∧
    (⟨4096, [⟨0, 16, 8⟩], 32⟩ : PoolAllocator).FreeAll = mkPoolAllocator ∧
    (⟨4096, [⟨0, 16, 8⟩], 32⟩ : PoolAllocator).FreeAll.Alloc 8 0 = mkPoolAllocator.Alloc 8 0 :=
  ⟨by decide,
   ((freeAll_resets_to_initial ⟨4096, [⟨0, 16, 16⟩], 24⟩).2.1 [(8, 100)]
       ⟨4096, [⟨0, 16, 8⟩], 32⟩ (by decide)).1,
   ((freeAll_resets_to_initial ⟨4096, [⟨0, 16, 16⟩], 24⟩).2.1 [(8, 100)]
       ⟨4096, [⟨0, 16, 8⟩], 32⟩ (by decide)).2 rfl 8 0⟩

/-- C8: each existing Block's free byte counter only ever decreases.
Every Pool Allocator operation leaves each pre-existing Block's `free`
unchanged or smaller: a successful `Alloc` (which may decrement the
current Block's `free` or append a fresh Block, never touching earlier
Blocks otherwise), a successful `AllocBlock` (which only appends), and
`Free` (a no-op).  (`FindNthPieceOfSize` is read-only by its embedding:
it is a pure function of the state.) -/
theorem block_free_only_decreases (p : PoolAllocator) (s nb mem a : Nat)
    (p' q : PoolAllocator) (i : Nat) :
    (p.Alloc s nb = some (a, p') → i < p.blocks.length →
      i < p'.blocks.length ∧
      (p'.blocks.getD i ⟨0, 0, 0⟩).free ≤ (p.blocks.getD i ⟨0, 0, 0⟩).free) ∧
    (p.AllocBlock s nb = some q → i < p.blocks.length →
      i < q.blocks.length ∧
      q.blocks.getD i ⟨0, 0, 0⟩ = p.blocks.getD i ⟨0, 0, 0⟩) ∧
    p.Free mem = p := by
  refine ⟨?_, ?_, rfl⟩
  · intro h hi
    rcases List.eq_nil_or_concat p.blocks with hnil | ⟨L, cb, hcat⟩
    · rw [alloc_empty p s nb hnil] at h
      exact absurd h (by simp)
    rw [List.concat_eq_append] at hcat
    rw [alloc_concat p s nb L cb hcat] at h
    rw [hcat] at hi
    rw [hcat]
    split at h
    · injection h with h1
      injection h1 with ha hp
      subst hp
      dsimp only
      constructor
      · simp only [List.length_append, List.length_cons, List.length_nil] at hi ⊢
        omega
      · rw [getD_concat_of_lt _ (L ++ [cb]) _ i hi]
    · injection h with h1
      injection h1 with ha hp
      subst hp
      dsimp only
      constructor
      · simp only [List.length_append, List.length_cons, List.length_nil] at hi ⊢
        omega
      · by_cases hiL : i < L.length
        · rw [getD_concat_of_lt _ L _ i hiL, getD_concat_of_lt _ L _ i hiL]
        · have hieq : i = L.length := by
            simp only [List.length_append, List.length_cons, List.length_nil] at hi
            omega
          subst hieq
          rw [getD_concat_last, getD_concat_last]
          exact Nat.sub_le _ _
  · intro h hi
    cases hcb : p.currBlock with
    | none =>
        rw [allocBlock_none p s nb hcb] at h
        exact absurd h (by simp)
    | some cb =>
        rw [allocBlock_some p s nb cb hcb] at h
        injection h with h1
        subst h1
        dsimp only
        refine ⟨?_, ?_⟩
        · simp only [List.length_append, List.length_cons, List.length_nil]
          omega
        · rw [getD_concat_of_lt _ p.blocks _ i hi]

/-- Witness for C8: an `Alloc(20)` that appends a fresh Block leaves the
pre-existing Block (index 0) with its `free` counter unchanged, and
`Free` is a no-op. -/
theorem block_free_only_decreases_witness :
    (0 < (⟨4096, [⟨0, 16, 16⟩, ⟨100, 4096, 4072⟩], 148⟩ : PoolAllocator).blocks.length ∧
     ((⟨4096, [⟨0, 16, 16⟩, ⟨100, 4096, 4072⟩], 148⟩ : PoolAllocator).blocks.getD 0
         ⟨0, 0, 0⟩).free ≤
       ((⟨4096, [⟨0, 16, 16⟩], 24⟩ : PoolAllocator).blocks.getD 0 ⟨0, 0, 0⟩).free) ∧
    (⟨4096, [⟨0, 16, 16⟩], 24⟩ : PoolAllocator).Free 55 = ⟨4096, [⟨0, 16, 16⟩], 24⟩ :=
  have h := block_free_only_decreases ⟨4096, [⟨0, 16, 16⟩], 24⟩ 20 100 55 124
      ⟨4096, [⟨0, 16, 16⟩, ⟨100, 4096, 4072⟩], 148⟩
      ⟨4096, [⟨0, 16, 16⟩, ⟨100, 4096, 4096⟩], 124⟩ 0
  ⟨h.1 (by decide) (by decide), h.2.2⟩

/-- C9: the FixedArray helper uses the embedded inline buffer exactly
when `count * sizeof(T) ≤ StackBufInBytes` (equivalently, when `count`
does not exceed `StackBufInBytes / sizeof(T)`, the number of elements
the inline budget holds); otherwise it mallocs a heap buffer of exactly
`count * sizeof(T)` bytes (`count` elements), and `Get` returns
whichever buffer was decided at construction. -/
theorem fixedArray_inline_iff (B s c : Nat) (hs : 0 < s) :
    ((mkFixedArray B s c).memBuf = none ↔ c * s ≤ B) ∧
    ((mkFixedArray B s c).memBuf = none ↔ c ≤ B / s) ∧
    (B < c * s → (mkFixedArray B s c).memBuf = some (c * s)) ∧
    (c * s ≤ B → (mkFixedArray B s c).Get = FixedArrayBuf.stackBuf) ∧
    (B < c * s → (mkFixedArray B s c).Get = FixedArrayBuf.memBuf) := by
  have key : c ≤ B / s ↔ c * s ≤ B := Nat.le_div_iff_mul_le hs
  rcases Nat.lt_or_ge (B / s) c with hgt | hle
  · have hmb : (mkFixedArray B s c).memBuf = some (c * s) := by
      unfold mkFixedArray
      dsimp only
      rw [if_pos hgt]
    have hget : (mkFixedArray B s c).Get = FixedArrayBuf.memBuf := by
      unfold FixedArray.Get
      rw [hmb]
    have hcs : ¬ c * s ≤ B := fun hc => absurd (key.mpr hc) (by omega)
    rw [hmb, hget]
    exact ⟨⟨fun h => by simp at h, fun h => absurd h hcs⟩,
           ⟨fun h => by simp at h, fun h => absurd h (by omega)⟩,
           fun _ => rfl,
           fun h => absurd h hcs,
           fun _ => rfl⟩
  · have hmb : (mkFixedArray B s c).memBuf = none := by
      unfold mkFixedArray
      dsimp only
      rw [if_neg (by omega)]
    have hget : (mkFixedArray B s c).Get = FixedArrayBuf.stackBuf := by
      unfold FixedArray.Get
      rw [hmb]
    have hcs : c * s ≤ B := key.mp hle
    rw [hmb, hget]
    exact ⟨⟨fun _ => hcs, fun _ => rfl⟩,
           ⟨fun _ => hle, fun _ => rfl⟩,
           fun h => absurd hcs (by omega),
           fun _ => rfl,
           fun h => absurd hcs (by omega)⟩

/-- Witness for C9: with a 16-byte inline budget and 8-byte elements,
2 elements (exactly the budget) stay inline; 3 elements go to a heap
buffer of 24 bytes. -/
theorem fixedArray_inline_iff_witness :
    (mkFixedArray 16 8 2).memBuf = none ∧
    (mkFixedArray 16 8 3).memBuf = some 24 ∧
    (mkFixedArray 16 8 2).Get = FixedArrayBuf.stackBuf ∧
    (mkFixedArray 16 8 3).Get = FixedArrayBuf.memBuf :=
  ⟨(fixedArray_inline_iff 16 8 2 (by decide)).1.mpr (by decide),
   (fixedArray_inline_iff 16 8 3 (by decide)).2.2.1 (by decide),
   (fixedArray_inline_iff 16 8 2 (by decide)).2.2.2.1 (by decide),
   (fixedArray_inline_iff 16 8 3 (by decide)).2.2.2.2 (by decide)⟩

/-- C10: `FreeAll` leaves `minBlockSize` unchanged; a minimum set via
`SetMinBlockSize` on a fresh pool survives any run of allocations
followed by `FreeAll`: the post-reset state is exactly `⟨n, [], 0⟩`
(minimum `n`, not the construction default 4096), so `Alloc`/`AllocBlock`
after the reset behave as on an empty pool configured with minimum `n`. -/
theorem freeAll_keeps_minBlockSize (p p' : PoolAllocator) (n : Nat)
    (l : List (Nat × Nat)) (q : PoolAllocator) :
    p.FreeAll.minBlockSize = p.minBlockSize ∧
    mkPoolAllocator.minBlockSize = 4096 ∧
    (mkPoolAllocator.SetMinBlockSize n = some p' → runAllocs p' l = some q →
      q.FreeAll = { minBlockSize := n, blocks := [], currMem := 0 } ∧
      (∀ S nb, q.FreeAll.Alloc S nb =
        ({ minBlockSize := n, blocks := [], currMem := 0 } : PoolAllocator).Alloc S nb) ∧
      (∀ m nb, q.FreeAll.AllocBlock m nb =
        ({ minBlockSize := n, blocks := [], currMem := 0 } : PoolAllocator).AllocBlock m nb)) := by
  refine ⟨rfl, rfl, ?_⟩
  intro hset hrun
  have hset' : some (⟨n, [], 0⟩ : PoolAllocator) = some p' := hset
  have hp' : p' = ⟨n, [], 0⟩ := by
    injection hset' with h1
    exact h1.symm
  have hmin : q.minBlockSize = n := by
    rw [runAllocs_minBlockSize l p' q hrun, hp']
  have hfa : q.FreeAll = ⟨n, [], 0⟩ := by
    unfold PoolAllocator.FreeAll
    rw [← hmin]
  exact ⟨hfa, fun S nb => by rw [hfa], fun m nb => by rw [hfa]⟩

/-- Witness for C10: set the minimum to 64 on a fresh pool; after
`FreeAll` the minimum is still 64. -/
theorem freeAll_keeps_minBlockSize_witness :
    mkPoolAllocator.SetMinBlockSize 64 = some (⟨64, [], 0⟩ : PoolAllocator) ∧
    runAllocs (⟨64, [], 0⟩ : PoolAllocator) [] = some (⟨64, [], 0⟩ : PoolAllocator) ∧
    (⟨64, [], 0⟩ : PoolAllocator).FreeAll = ⟨64, [], 0⟩ ∧
    (⟨64, [], 0⟩ : PoolAllocator).FreeAll.minBlockSize = 64 :=
  have h := (freeAll_keeps_minBlockSize mkPoolAllocator ⟨64, [], 0⟩ 64 []
      ⟨64, [], 0⟩).2.2 (by decide) (by decide)
  ⟨by decide, by decide, h.1, by rw [h.1]⟩

/-! ### The `WF` invariant is established and preserved by the allocator -/

theorem mkPoolAllocator_WF : mkPoolAllocator.WF := by
  exact ⟨by intro b hb; simp [mkPoolAllocator] at hb, rfl⟩

theorem freeAll_WF (p : PoolAllocator) : p.FreeAll.WF := by
  exact ⟨by intro b hb; simp [PoolAllocator.FreeAll] at hb, rfl⟩

theorem alloc_preserves_WF (p : PoolAllocator) (s nb a : Nat) (p' : PoolAllocator)
    (hwf : p.WF) (h : p.Alloc s nb = some (a, p')) : p'.WF := by
  rcases List.eq_nil_or_concat p.blocks with hnil | ⟨L, cb, hcat⟩
  · rw [alloc_empty p s nb hnil] at h
    exact absurd h (by simp)
  rw [List.concat_eq_append] at hcat
  have hcbmem : cb ∈ p.blocks := by
    rw [hcat]
    exact List.mem_append_right L (by simp)
  obtain ⟨hfs, hdv⟩ := hwf.1 cb hcbmem
  have hcm : p.currMem = cb.dataStart + cb.Used := by
    have h2 := hwf.2
    rw [hcat, List.getLast?_concat] at h2
    exact h2
  have hall : ∀ b ∈ L, b.free ≤ b.size ∧ 8 ∣ (b.size - b.free) := by
    intro b hb
    exact hwf.1 b (by rw [hcat]; exact List.mem_append_left _ hb)
  have hr8 : 8 ∣ RoundUpTo8 s := RoundUpTo8_dvd s
  rw [alloc_concat p s nb L cb hcat] at h
  split at h
  · rename_i hlt
    injection h with h1
    injection h1 with ha hp
    subst hp
    have hM : RoundUpTo8 s ≤ max p.minBlockSize (RoundUpTo8 s) := Nat.le_max_right _ _
    constructor
    · intro b hb
      dsimp only at hb
      rcases List.mem_append.mp hb with hb1 | hb2
      · rcases List.mem_append.mp hb1 with hbL | hbcb
        · exact hall b hbL
        · have hbe : b = cb := by simpa using hbcb
          subst hbe
          exact ⟨hfs, hdv⟩
      · have hbe : b = { base := nb,
                         size := max p.minBlockSize (RoundUpTo8 s),
                         free := max p.minBlockSize (RoundUpTo8 s) - RoundUpTo8 s } := by
          simpa using hb2
        subst hbe
        dsimp only
        constructor
        · exact Nat.sub_le _ _
        · have heq : max p.minBlockSize (RoundUpTo8 s) -
              (max p.minBlockSize (RoundUpTo8 s) - RoundUpTo8 s) = RoundUpTo8 s := by
            omega
          rw [heq]
          exact hr8
    · dsimp only
      rw [List.getLast?_concat]
      dsimp only
      simp only [MemBlockNode.dataStart, MemBlockNode.Used]
      omega
  · rename_i hge
    injection h with h1
    injection h1 with ha hp
    subst hp
    constructor
    · intro b hb
      dsimp only at hb
      rcases List.mem_append.mp hb with hbL | hbcb
      · exact hall b hbL
      · have hbe : b = { base := cb.base, size := cb.size,
                         free := cb.free - RoundUpTo8 s } := by
          simpa using hbcb
        subst hbe
        dsimp only
        constructor
        · omega
        · have heq : cb.size - (cb.free - RoundUpTo8 s) =
              (cb.size - cb.free) + RoundUpTo8 s := by
            omega
          rw [heq]
          exact Nat.dvd_add hdv hr8
    · dsimp only
      rw [List.getLast?_concat]
      dsimp only
      simp only [MemBlockNode.dataStart, MemBlockNode.Used] at hcm ⊢
      omega
